import Mathlib

/-!
Shallow embedding of `src/bim_inner_join.cpp` (the `bim_inner_join` tool):
a k-way sorted-merge join over bim variant files.

The embedding models the program at the record level: each input stream is
the list of its remaining (already parsed) records together with the C++
`eofbit` flag, which is set only when a read fails (the newline-terminated
file case).  Output streams (`Log`) are modelled as the lists of lines
written so far.  All definitions mirror the corresponding C++ functions.
-/

namespace BimInnerJoin

/-- One bim record: `struct Variant` in the source.  `chrom` and `position`
are C++ `unsigned int`, modelled as `Nat` (no arithmetic is performed on
them, only comparisons, so overflow is irrelevant). -/
structure Variant where
  chrom : Nat
  name : String
  position : Nat
  a1 : String
  a2 : String
deriving DecidableEq, Repr

instance : Inhabited Variant := ⟨⟨0, "", 0, "", ""⟩⟩

/-- `Variant::operator==`: equality on the locus (chromosome, position)
only; alleles and name are ignored. -/
def Variant.locus_eq (a that : Variant) : Bool :=
  a.chrom == that.chrom && a.position == that.position

/-- `Variant::operator<`: strict order by chromosome, then position. -/
def Variant.lt (a that : Variant) : Bool :=
  if a.chrom ≠ that.chrom then decide (a.chrom < that.chrom)
  else decide (a.position < that.position)

/-- `Variant::operator>`: strict order by chromosome, then position. -/
def Variant.gt (a that : Variant) : Bool :=
  if a.chrom ≠ that.chrom then decide (a.chrom > that.chrom)
  else decide (a.position > that.position)

/-- The `unordered_set<string>` built inside `Variant::alleles_eq`: the
distinct alleles among `a.a1, a.a2, that.a1, that.a2` that are not the
sentinel `"0"` (as a deduplicated list; its length is the set's size). -/
def Variant.allele_pool (a that : Variant) : List String :=
  ([a.a1, a.a2, that.a1, that.a2].filter (fun s => s != "0")).dedup

/-- `Variant::alleles_eq`: locus equality and at most two distinct
non-sentinel alleles between the two records. -/
def Variant.alleles_eq (a that : Variant) : Bool :=
  Variant.locus_eq a that && decide ((Variant.allele_pool a that).length ≤ 2)

theorem Variant.locus_eq_iff (a b : Variant) :
    Variant.locus_eq a b = true ↔ a.chrom = b.chrom ∧ a.position = b.position := by
  simp [Variant.locus_eq]

theorem Variant.lt_iff (a b : Variant) :
    Variant.lt a b = true ↔
      a.chrom < b.chrom ∨ (a.chrom = b.chrom ∧ a.position < b.position) := by
  unfold Variant.lt
  by_cases h : a.chrom = b.chrom <;> simp [h]

theorem Variant.gt_iff (a b : Variant) :
    Variant.gt a b = true ↔
      b.chrom < a.chrom ∨ (b.chrom = a.chrom ∧ b.position < a.position) := by
  unfold Variant.gt
  by_cases h : a.chrom = b.chrom
  · simp [h]
  · simp [h]
    omega

/-- C2.  `alleles_eq(a, b)` holds iff the loci are equal and the set of
distinct non-sentinel alleles drawn from both records has at most two
elements. -/
theorem alleles_eq_correct (a b : Variant) :
    Variant.alleles_eq a b = true ↔
      (a.chrom = b.chrom ∧ a.position = b.position ∧
        (({a.a1, a.a2, b.a1, b.a2} : Finset String).filter (fun s => s ≠ "0")).card ≤ 2) := by
  have hpool : (Variant.allele_pool a b).length
      = (({a.a1, a.a2, b.a1, b.a2} : Finset String).filter (fun s => s ≠ "0")).card := by
    unfold Variant.allele_pool
    rw [← List.card_toFinset, List.toFinset_filter]
    congr 1
    · simp
  unfold Variant.alleles_eq
  rw [hpool]
  simp [Variant.locus_eq_iff, and_assoc]

/-- An open input stream: the records not yet consumed plus the C++
`eofbit`, which is set only when a read fails. -/
structure BimStream where
  remaining : List Variant
  eofFlag : Bool
deriving DecidableEq, Repr

instance : Inhabited BimStream := ⟨⟨[], true⟩⟩

/-- `read_variant`: attempt to read the next record into `v`.  At end of
stream `getline` yields the empty line: the function returns `false`,
leaves `v` untouched and the stream's eofbit becomes set.  Otherwise the
next record overwrites `v` and is consumed. -/
def read_variant (file : BimStream) (v : Variant) : BimStream × Variant × Bool :=
  match file.remaining with
  | [] => (⟨[], true⟩, v, false)
  | w :: rest => (⟨rest, file.eofFlag⟩, w, true)

/-- `read_variants`: advance every stream whose eofbit is clear. -/
def read_variants (files : List BimStream) (cur : List Variant) :
    List BimStream × List Variant :=
  let pairs := (files.zip cur).map (fun p =>
    if !p.1.eofFlag then (let r := read_variant p.1 p.2; (r.1, r.2.1)) else p)
  (pairs.map Prod.fst, pairs.map Prod.snd)

/-- `read_variants_until_max`: advance every stream whose current record
is strictly before `mx` and whose eofbit is clear. -/
def read_variants_until_max (files : List BimStream) (cur : List Variant)
    (mx : Variant) : List BimStream × List Variant :=
  let pairs := (files.zip cur).map (fun p =>
    if Variant.lt p.2 mx && !p.1.eofFlag then
      (let r := read_variant p.1 p.2; (r.1, r.2.1))
    else p)
  (pairs.map Prod.fst, pairs.map Prod.snd)

/-- `any_eof`: whether some stream's eofbit is set. -/
def any_eof (files : List BimStream) : Bool := files.any (fun f => f.eofFlag)

/-- The body of the scan loop of `max`: `g` is the index of the current
greatest record, `i` the loop counter. -/
def maxStep (li : List Variant) (g i : Nat) : Nat :=
  if Variant.gt (li.getD i default) (li.getD g default) then i else g

/-- `max(li, n)`: the returned pointer, as an index into `li`; the scan
runs `i` over `1 .. n-1` starting from candidate index `0` and replaces
the candidate only on strict `>`. -/
def maxIdx (li : List Variant) : Nat :=
  (List.range' 1 (li.length - 1)).foldl (maxStep li) 0

/-- The record `*max(li, n)`. -/
def maxVariant (li : List Variant) : Variant := li.getD (maxIdx li) default

/-- The output destinations of `struct Log`: per-input name lists and the
two shared bim outputs, each as the list of lines written so far. -/
structure Log where
  names_lists : List (List String)
  matches_bim : List String
  mismatches_bim : List String
deriving DecidableEq, Repr

/-- `write_bim_line`: one tab-separated six-field output line; the third
(distance) field is the literal `"0"`. -/
def write_bim_line (v : Variant) : String :=
  toString v.chrom ++ "\t" ++ v.name ++ "\t" ++ "0" ++ "\t" ++
    toString v.position ++ "\t" ++ v.a1 ++ "\t" ++ v.a2

/-- `log.names_lists[i] << name`: append one name to the i-th list. -/
def appendName (ls : List (List String)) (i : Nat) (nm : String) :
    List (List String) :=
  ls.set i (ls.getD i [] ++ [nm])

/-- The output loop of `check_match`, run only when all records match:
`i` is the index of the first record of `li` in the full frontier;
`wrote` is `wrote_bim_line`. -/
def matchLoop (li : List Variant) (i : Nat) (log : Log) (wrote : Bool) :
    Log × Bool :=
  match li with
  | [] => (log, wrote)
  | v :: rest =>
    let log1 : Log := { log with names_lists := appendName log.names_lists i v.name }
    if !wrote && v.a1 != "0" && v.a2 != "0" then
      matchLoop rest (i + 1)
        { log1 with matches_bim := log1.matches_bim ++ [write_bim_line v] } true
    else matchLoop rest (i + 1) log1 wrote

/-- `check_match`: decide whether the frontier fully matches (every
record from index 1 on is `alleles_eq` to record 0) and perform the
corresponding output writes. -/
def check_match (li : List Variant) (log : Log) : Bool × Log :=
  let first := li.headD default
  let all_match := li.tail.all (fun v => Variant.alleles_eq v first)
  if all_match then
    let r := matchLoop li 0 log false
    if r.2 then (true, r.1)
    else (true, { r.1 with matches_bim := r.1.matches_bim ++ [write_bim_line first] })
  else (false, log)

/-- The whole mutable state of `main`'s merge loop. -/
structure MState where
  streams : List BimStream
  cur : List Variant
  log : Log
deriving DecidableEq, Repr

/-- One iteration of the `while (!any_eof(...))` loop in `main`. -/
def step (s : MState) : MState :=
  let r := check_match s.cur s.log
  if r.1 then
    let p := read_variants s.streams s.cur
    ⟨p.1, p.2, r.2⟩
  else
    let mx := maxVariant s.cur
    let p := read_variants_until_max s.streams s.cur mx
    ⟨p.1, p.2, r.2⟩

/-- The merge loop with explicit fuel: `some` is reached when `any_eof`
becomes true (normal termination); `none` means the fuel ran out before
the loop condition turned false. -/
def run : Nat → MState → Option MState
  | 0, s => if any_eof s.streams then some s else none
  | fuel + 1, s => if any_eof s.streams then some s else run fuel (step s)

/-- The fresh `Log` produced by `Log::open(n)`: n empty name lists and
the two empty bim outputs. -/
def Log.openLog (n : Nat) : Log := ⟨List.replicate n [], [], []⟩

/-- The state after `Variant cur[n_files]` and the initial
`read_variants` call in `main`: every stream starts with its full record
list and a clear eofbit, every cursor default-constructed. -/
def initState (files : List (List Variant)) : MState :=
  let streams := files.map (fun f => (⟨f, false⟩ : BimStream))
  let cur : List Variant := List.replicate files.length default
  let p := read_variants streams cur
  ⟨p.1, p.2, Log.openLog files.length⟩

/-- Observable outcome of `main`, with the side effects the claims talk
about recorded explicitly. -/
structure MainResult where
  openedOutputLogs : Bool
  printedUsage : Bool
  openedInputCount : Nat
  joinStarted : Bool
  exitCode : Option Nat
  finalState : Option MState
deriving Repr

/-- Total record count over all input files. -/
def totalRecords (files : List (List Variant)) : Nat :=
  (files.map List.length).sum

/-- `main`, given the parsed contents of the input files named on the
command line (`files.length = argc - 1`).  `Log::open` and the input
`open` calls are assumed to succeed (failure exits are thin I/O outside
the claims' scope; note the source calls `log.open` before the usage
check, so the output logs are opened on every path).  `exitCode = none`
models a run whose merge loop does not finish within `totalRecords
files` iterations. -/
def bimMain (files : List (List Variant)) : MainResult :=
  if files.length + 1 ≤ 2 then
    { openedOutputLogs := true, printedUsage := true, openedInputCount := 0,
      joinStarted := false, exitCode := some 1, finalState := none }
  else
    let r := run (totalRecords files) (initState files)
    { openedOutputLogs := true, printedUsage := false,
      openedInputCount := files.length, joinStarted := true,
      exitCode := r.map (fun _ => 0), finalState := r }

/-! ## Index-wise behaviour of the reading loops -/

theorem read_variants_getD (files : List BimStream) (cur : List Variant) (i : Nat)
    (hlen : files.length = cur.length) (hi : i < files.length) :
    (read_variants files cur).1.getD i default
      = (if !(files.getD i default).eofFlag
         then (read_variant (files.getD i default) (cur.getD i default)).1
         else files.getD i default) ∧
    (read_variants files cur).2.getD i default
      = (if !(files.getD i default).eofFlag
         then (read_variant (files.getD i default) (cur.getD i default)).2.1
         else cur.getD i default) := by
  induction files generalizing cur i with
  | nil => simp at hi
  | cons f fs ih =>
    cases cur with
    | nil => simp at hlen
    | cons v vs =>
      cases i with
      | zero =>
        constructor <;> (simp only [read_variants, List.zip_cons_cons,
          List.map_cons, List.getD_cons_zero]; split <;> simp)
      | succ j =>
        have h1 : fs.length = vs.length := by simpa using hlen
        have h2 : j < fs.length := by simpa using hi
        have := ih vs j h1 h2
        simpa [read_variants, List.getD_cons_succ] using this

theorem read_variants_until_max_getD (files : List BimStream) (cur : List Variant)
    (mx : Variant) (i : Nat)
    (hlen : files.length = cur.length) (hi : i < files.length) :
    (read_variants_until_max files cur mx).1.getD i default
      = (if Variant.lt (cur.getD i default) mx && !(files.getD i default).eofFlag
         then (read_variant (files.getD i default) (cur.getD i default)).1
         else files.getD i default) ∧
    (read_variants_until_max files cur mx).2.getD i default
      = (if Variant.lt (cur.getD i default) mx && !(files.getD i default).eofFlag
         then (read_variant (files.getD i default) (cur.getD i default)).2.1
         else cur.getD i default) := by
  induction files generalizing cur i with
  | nil => simp at hi
  | cons f fs ih =>
    cases cur with
    | nil => simp at hlen
    | cons v vs =>
      cases i with
      | zero =>
        constructor <;> (simp only [read_variants_until_max, List.zip_cons_cons,
          List.map_cons, List.getD_cons_zero]; split <;> simp)
      | succ j =>
        have h1 : fs.length = vs.length := by simpa using hlen
        have h2 : j < fs.length := by simpa using hi
        have := ih vs j h1 h2
        simpa [read_variants_until_max, List.getD_cons_succ] using this

theorem read_variants_length (files : List BimStream) (cur : List Variant)
    (hlen : files.length = cur.length) :
    (read_variants files cur).1.length = files.length ∧
    (read_variants files cur).2.length = cur.length := by
  simp [read_variants, hlen]

theorem read_variants_until_max_length (files : List BimStream) (cur : List Variant)
    (mx : Variant) (hlen : files.length = cur.length) :
    (read_variants_until_max files cur mx).1.length = files.length ∧
    (read_variants_until_max files cur mx).2.length = cur.length := by
  simp [read_variants_until_max, hlen]

/-- C10.  When the line reader hits the end of a stream (the empty-line
case), `read_variant` returns `false` and leaves the passed record
unchanged; consequently `read_variants` leaves the cursor of an
exhausted stream holding the last successfully parsed record. -/
theorem read_variant_at_end (file : BimStream) (v : Variant)
    (files : List BimStream) (cur : List Variant) (i : Nat)
    (hrem : file.remaining = [])
    (hlen : files.length = cur.length) (hi : i < files.length)
    (hremi : (files.getD i default).remaining = []) :
    read_variant file v = (⟨[], true⟩, v, false) ∧
    (read_variants files cur).2.getD i default = cur.getD i default := by
  constructor
  · unfold read_variant
    rw [hrem]
  · rw [(read_variants_getD files cur i hlen hi).2]
    split
    · unfold read_variant
      rw [hremi]
    · rfl

theorem read_variant_at_end_witness :
    read_variant ⟨[], false⟩ ⟨1, "rs1", 100, "A", "G"⟩
        = (⟨[], true⟩, ⟨1, "rs1", 100, "A", "G"⟩, false) ∧
    (read_variants [⟨[], false⟩] [⟨1, "rs1", 100, "A", "G"⟩]).2.getD 0 default
        = [(⟨1, "rs1", 100, "A", "G"⟩ : Variant)].getD 0 default :=
  read_variant_at_end ⟨[], false⟩ ⟨1, "rs1", 100, "A", "G"⟩
    [⟨[], false⟩] [⟨1, "rs1", 100, "A", "G"⟩] 0 rfl rfl (by decide) rfl

/-! ## The merge iteration -/

theorem check_match_fst (li : List Variant) (log : Log) :
    (check_match li log).1
      = li.tail.all (fun v => Variant.alleles_eq v (li.headD default)) := by
  simp only [check_match]
  split
  · rename_i h
    split <;> exact h.symm
  · rename_i h
    simp only [Bool.not_eq_true] at h
    exact h.symm

theorem step_mismatch (s : MState) (h : (check_match s.cur s.log).1 = false) :
    step s = ⟨(read_variants_until_max s.streams s.cur (maxVariant s.cur)).1,
              (read_variants_until_max s.streams s.cur (maxVariant s.cur)).2,
              (check_match s.cur s.log).2⟩ := by
  simp only [step]
  rw [h]
  simp

theorem step_match (s : MState) (h : (check_match s.cur s.log).1 = true) :
    step s = ⟨(read_variants s.streams s.cur).1,
              (read_variants s.streams s.cur).2,
              (check_match s.cur s.log).2⟩ := by
  simp only [step]
  rw [h]
  simp

/-- C1.  In a mismatching iteration, exactly the streams whose current
record is strictly before the selected maximum and which still hold
records are advanced by one record; a stream at or past the maximum is
left completely unchanged, and a stream before the maximum with no
records left keeps its current record. -/
theorem mismatch_advances_exactly_laggards (s : MState) (i : Nat)
    (hlen : s.streams.length = s.cur.length)
    (hmm : (check_match s.cur s.log).1 = false)
    (hi : i < s.streams.length)
    (hinv : (s.streams.getD i default).eofFlag = true →
            (s.streams.getD i default).remaining = []) :
    (Variant.lt (s.cur.getD i default) (maxVariant s.cur) = true →
       (s.streams.getD i default).remaining ≠ [] →
       (step s).cur.getD i default
           = (s.streams.getD i default).remaining.headD default ∧
       ((step s).streams.getD i default).remaining
           = (s.streams.getD i default).remaining.tail ∧
       ((step s).streams.getD i default).eofFlag
           = (s.streams.getD i default).eofFlag) ∧
    (Variant.lt (s.cur.getD i default) (maxVariant s.cur) = false →
       (step s).cur.getD i default = s.cur.getD i default ∧
       (step s).streams.getD i default = s.streams.getD i default) ∧
    ((s.streams.getD i default).remaining = [] →
       (step s).cur.getD i default = s.cur.getD i default) := by
  rw [step_mismatch s hmm]
  have hg := read_variants_until_max_getD s.streams s.cur (maxVariant s.cur) i hlen hi
  refine ⟨?_, ?_, ?_⟩
  · intro hlt hne
    have heof : (s.streams.getD i default).eofFlag = false := by
      cases h : (s.streams.getD i default).eofFlag
      · rfl
      · exact absurd (hinv h) hne
    have hcond : (Variant.lt (s.cur.getD i default) (maxVariant s.cur)
        && !(s.streams.getD i default).eofFlag) = true := by
      rw [hlt, heof]
      rfl
    rcases hrem : (s.streams.getD i default).remaining with _ | ⟨w, rest⟩
    · exact absurd hrem hne
    · have hread : read_variant (s.streams.getD i default) (s.cur.getD i default)
          = (⟨rest, (s.streams.getD i default).eofFlag⟩, w, true) := by
        unfold read_variant
        rw [hrem]
      refine ⟨?_, ?_, ?_⟩
      · show (read_variants_until_max s.streams s.cur (maxVariant s.cur)).2.getD i default = _
        rw [hg.2, hcond, if_pos rfl, hread]
        rfl
      · show ((read_variants_until_max s.streams s.cur (maxVariant s.cur)).1.getD i default).remaining = _
        rw [hg.1, hcond, if_pos rfl, hread]
        rfl
      · show ((read_variants_until_max s.streams s.cur (maxVariant s.cur)).1.getD i default).eofFlag = _
        rw [hg.1, hcond, if_pos rfl, hread]
  · intro hlt
    have hcond : (Variant.lt (s.cur.getD i default) (maxVariant s.cur)
        && !(s.streams.getD i default).eofFlag) = false := by
      rw [hlt]
      rfl
    constructor
    · show (read_variants_until_max s.streams s.cur (maxVariant s.cur)).2.getD i default = _
      rw [hg.2, hcond]
      rfl
    · show (read_variants_until_max s.streams s.cur (maxVariant s.cur)).1.getD i default = _
      rw [hg.1, hcond]
      rfl
  · intro hrem
    show (read_variants_until_max s.streams s.cur (maxVariant s.cur)).2.getD i default = _
    rw [hg.2]
    split
    · unfold read_variant
      rw [hrem]
    · rfl

/-- A mismatching two-stream state used to witness C1: stream 0 lags the
maximum locus (1, 200) and still holds a record. -/
def lagState : MState :=
  ⟨[⟨[⟨1, "rs2", 200, "A", "T"⟩], false⟩, ⟨[], false⟩],
   [⟨1, "rs1", 100, "A", "G"⟩, ⟨1, "rs2b", 200, "A", "T"⟩],
   Log.openLog 2⟩

theorem mismatch_advances_exactly_laggards_witness :
    (Variant.lt (lagState.cur.getD 0 default) (maxVariant lagState.cur) = true →
       (lagState.streams.getD 0 default).remaining ≠ [] →
       (step lagState).cur.getD 0 default
           = (lagState.streams.getD 0 default).remaining.headD default ∧
       ((step lagState).streams.getD 0 default).remaining
           = (lagState.streams.getD 0 default).remaining.tail ∧
       ((step lagState).streams.getD 0 default).eofFlag
           = (lagState.streams.getD 0 default).eofFlag) ∧
    (Variant.lt (lagState.cur.getD 0 default) (maxVariant lagState.cur) = false →
       (step lagState).cur.getD 0 default = lagState.cur.getD 0 default ∧
       (step lagState).streams.getD 0 default = lagState.streams.getD 0 default) ∧
    ((lagState.streams.getD 0 default).remaining = [] →
       (step lagState).cur.getD 0 default = lagState.cur.getD 0 default) :=
  mismatch_advances_exactly_laggards lagState 0 rfl (by decide) (by decide) (by decide)

/-! ## Maximum selection -/

theorem Variant.gt_irrefl (a : Variant) : Variant.gt a a = false := by
  rw [Bool.eq_false_iff, Ne, Variant.gt_iff]
  omega

theorem Variant.not_gt_of_not_gt_of_gt {a g b : Variant}
    (h1 : Variant.gt a g = false) (h2 : Variant.gt b g = true) :
    Variant.gt a b = false ∧ Variant.lt a b = true := by
  rw [Bool.eq_false_iff, Ne, Variant.gt_iff] at h1
  rw [Variant.gt_iff] at h2
  constructor
  · rw [Bool.eq_false_iff, Ne, Variant.gt_iff]
    omega
  · rw [Variant.lt_iff]
    omega

theorem maxFold_spec (li : List Variant) (len : Nat) :
    ∀ (g s : Nat), s + len ≤ li.length → g < li.length → g < s →
    (∀ m, m < s → Variant.gt (li.getD m default) (li.getD g default) = false) →
    (∀ m, m < g → Variant.lt (li.getD m default) (li.getD g default) = true) →
    (List.range' s len).foldl (maxStep li) g < li.length ∧
    (∀ m, m < s + len →
      Variant.gt (li.getD m default)
        (li.getD ((List.range' s len).foldl (maxStep li) g) default) = false) ∧
    (∀ m, m < (List.range' s len).foldl (maxStep li) g →
      Variant.lt (li.getD m default)
        (li.getD ((List.range' s len).foldl (maxStep li) g) default) = true) := by
  induction len with
  | zero =>
    intro g s h1 h2 h3 h4 h5
    simp only [List.range', List.foldl_nil]
    exact ⟨h2, fun m hm => h4 m (by omega), h5⟩
  | succ len ih =>
    intro g s h1 h2 h3 h4 h5
    simp only [List.range'_succ, List.foldl_cons]
    by_cases hgt : Variant.gt (li.getD s default) (li.getD g default) = true
    · have hstep : maxStep li g s = s := by
        unfold maxStep
        rw [if_pos hgt]
      rw [hstep]
      have hres := ih s (s + 1) (by omega) (by omega) (by omega)
        (fun m hm => by
          rcases Nat.lt_succ_iff_lt_or_eq.mp hm with h | h
          · exact (Variant.not_gt_of_not_gt_of_gt (h4 m h) hgt).1
          · subst h
            exact Variant.gt_irrefl _)
        (fun m hm => (Variant.not_gt_of_not_gt_of_gt (h4 m hm) hgt).2)
      exact ⟨hres.1, fun m hm => hres.2.1 m (by omega), hres.2.2⟩
    · have hstep : maxStep li g s = g := by
        unfold maxStep
        rw [if_neg hgt]
      rw [hstep]
      have hres := ih g (s + 1) (by omega) h2 (by omega)
        (fun m hm => by
          rcases Nat.lt_succ_iff_lt_or_eq.mp hm with h | h
          · exact h4 m h
          · subst h
            exact Bool.eq_false_iff.mpr hgt)
        h5
      exact ⟨hres.1, fun m hm => hres.2.1 m (by omega), hres.2.2⟩

/-- C5.  `max` returns the record at the smallest index attaining the
greatest locus: no record of the frontier is strictly greater than the
selected one, and every record at a smaller index than the selected one
is strictly smaller (so an equal-maximum tie keeps the earliest index). -/
theorem max_first_greatest (li : List Variant) (h : li ≠ []) :
    maxVariant li = li.getD (maxIdx li) default ∧
    maxIdx li < li.length ∧
    (∀ j, j < li.length → Variant.gt (li.getD j default) (maxVariant li) = false) ∧
    (∀ j, j < maxIdx li → Variant.lt (li.getD j default) (maxVariant li) = true) := by
  have h0 : 0 < li.length := List.length_pos.mpr h
  have hres := maxFold_spec li (li.length - 1) 0 1 (by omega) h0 (by omega)
    (fun m hm => by
      have hm0 : m = 0 := by omega
      subst hm0
      exact Variant.gt_irrefl _)
    (fun m hm => absurd hm (by omega))
  have hfold : (List.range' 1 (li.length - 1)).foldl (maxStep li) 0 = maxIdx li := rfl
  rw [hfold] at hres
  exact ⟨rfl, hres.1, fun j hj => hres.2.1 j (by omega), hres.2.2⟩

theorem max_first_greatest_witness :
    maxIdx [⟨1, "a", 100, "A", "G"⟩, ⟨2, "b", 50, "C", "T"⟩, ⟨2, "c", 50, "C", "G"⟩]
        < ([⟨1, "a", 100, "A", "G"⟩, ⟨2, "b", 50, "C", "T"⟩,
            ⟨2, "c", 50, "C", "G"⟩] : List Variant).length ∧
    Variant.gt (([⟨1, "a", 100, "A", "G"⟩, ⟨2, "b", 50, "C", "T"⟩,
            ⟨2, "c", 50, "C", "G"⟩] : List Variant).getD 2 default)
        (maxVariant [⟨1, "a", 100, "A", "G"⟩, ⟨2, "b", 50, "C", "T"⟩,
            ⟨2, "c", 50, "C", "G"⟩]) = false ∧
    Variant.lt (([⟨1, "a", 100, "A", "G"⟩, ⟨2, "b", 50, "C", "T"⟩,
            ⟨2, "c", 50, "C", "G"⟩] : List Variant).getD 0 default)
        (maxVariant [⟨1, "a", 100, "A", "G"⟩, ⟨2, "b", 50, "C", "T"⟩,
            ⟨2, "c", 50, "C", "G"⟩]) = true :=
  ⟨(max_first_greatest _ (by decide)).2.1,
   (max_first_greatest _ (by decide)).2.2.1 2 (by decide),
   (max_first_greatest _ (by decide)).2.2.2 0 (by decide)⟩

/-! ## The full-match test -/

theorem all_getD (p : Variant → Bool) (l : List Variant) :
    l.all p = true ↔ ∀ i, i < l.length → p (l.getD i default) = true := by
  induction l with
  | nil => simp
  | cons a t ih =>
    simp only [List.all_cons, Bool.and_eq_true, ih, List.length_cons]
    constructor
    · rintro ⟨pa, ht⟩ i hi
      cases i with
      | zero => simpa using pa
      | succ j => simpa using ht j (by omega)
    · intro h
      exact ⟨by simpa using h 0 (by omega), fun j hj => by simpa using h (j + 1) (by omega)⟩

/-- C6.  The full-match test succeeds iff every record at index `i ≥ 1`
is `alleles_eq` to record 0; records are compared only against this
reference, as shown by a frontier that passes the test although its two
non-reference records are mutually allele-incompatible. -/
theorem check_match_against_reference_only :
    (∀ (li : List Variant) (log : Log),
      (check_match li log).1 = true ↔
        ∀ i, 1 ≤ i → i < li.length →
          Variant.alleles_eq (li.getD i default) (li.getD 0 default) = true) ∧
    ((check_match [⟨1, "r", 100, "A", "0"⟩, ⟨1, "s", 100, "A", "G"⟩,
        ⟨1, "t", 100, "A", "T"⟩] (Log.openLog 3)).1 = true ∧
      Variant.alleles_eq ⟨1, "s", 100, "A", "G"⟩ ⟨1, "t", 100, "A", "T"⟩ = false) := by
  refine ⟨?_, by decide, by decide⟩
  intro li log
  rw [check_match_fst]
  cases li with
  | nil => simp
  | cons a t =>
    rw [show (a :: t).tail = t from rfl, all_getD]
    constructor
    · intro h i h1 h2
      cases i with
      | zero => omega
      | succ j => simpa using h j (by simpa using h2)
    · intro h i hi
      simpa using h (i + 1) (by omega) (by simpa using hi)

/-! ## Output routing -/

theorem matchLoop_mismatches (li : List Variant) (i : Nat) (log : Log) (wrote : Bool) :
    (matchLoop li i log wrote).1.mismatches_bim = log.mismatches_bim := by
  induction li generalizing i log wrote with
  | nil => rfl
  | cons v rest ih =>
    simp only [matchLoop]
    split
    · rw [ih]
    · rw [ih]

theorem check_match_mismatches (li : List Variant) (log : Log) :
    (check_match li log).2.mismatches_bim = log.mismatches_bim := by
  simp only [check_match]
  split
  · split
    · exact matchLoop_mismatches li 0 log false
    · exact matchLoop_mismatches li 0 log false
  · rfl

theorem step_mismatches (s : MState) :
    (step s).log.mismatches_bim = s.log.mismatches_bim := by
  simp only [step]
  split
  · exact check_match_mismatches s.cur s.log
  · exact check_match_mismatches s.cur s.log

theorem run_mismatches (fuel : Nat) :
    ∀ s r, run fuel s = some r → r.log.mismatches_bim = s.log.mismatches_bim := by
  induction fuel with
  | zero =>
    intro s r h
    simp only [run] at h
    split at h
    · cases h
      rfl
    · cases h
  | succ n ih =>
    intro s r h
    simp only [run] at h
    split at h
    · cases h
      rfl
    · exact (ih (step s) r h).trans (step_mismatches s)

theorem check_match_false_log (li : List Variant) (log : Log)
    (h : (check_match li log).1 = false) : (check_match li log).2 = log := by
  rw [check_match_fst] at h
  simp only [check_match]
  rw [h, if_neg Bool.false_ne_true]

/-- C8.  A mismatching frontier produces no output at all: `check_match`
returns the log unchanged, and over any terminating run the mismatch
output file never receives a record. -/
theorem mismatch_writes_nothing (li : List Variant) (log : Log) (fuel : Nat)
    (s r : MState)
    (h1 : (check_match li log).1 = false)
    (h2 : run fuel s = some r) :
    (check_match li log).2 = log ∧
    r.log.mismatches_bim = s.log.mismatches_bim :=
  ⟨check_match_false_log li log h1, run_mismatches fuel s r h2⟩

/-- A one-stream state whose stream already has its eofbit set, so the
merge loop stops immediately. -/
def eofState : MState := ⟨[⟨[], true⟩], [default], Log.openLog 1⟩

theorem mismatch_writes_nothing_witness :
    (check_match [⟨1, "a", 100, "A", "G"⟩, ⟨1, "b", 100, "C", "T"⟩]
        (Log.openLog 2)).2 = Log.openLog 2 ∧
    eofState.log.mismatches_bim = eofState.log.mismatches_bim :=
  mismatch_writes_nothing [⟨1, "a", 100, "A", "G"⟩, ⟨1, "b", 100, "C", "T"⟩]
    (Log.openLog 2) 0 eofState eofState (by decide) (by decide)

theorem getD_set_self (ls : List (List String)) (i : Nat) (x : List String)
    (h : i < ls.length) : (ls.set i x).getD i [] = x := by
  induction ls generalizing i with
  | nil => simp at h
  | cons a t ih =>
    cases i with
    | zero => rfl
    | succ j => simpa using ih j (by simpa using h)

theorem getD_set_ne (ls : List (List String)) (i j : Nat) (x : List String)
    (h : i ≠ j) : (ls.set i x).getD j [] = ls.getD j [] := by
  induction ls generalizing i j with
  | nil => rfl
  | cons a t ih =>
    cases i with
    | zero =>
      cases j with
      | zero => exact absurd rfl h
      | succ k => rfl
    | succ m =>
      cases j with
      | zero => rfl
      | succ k => simpa using ih m k (fun hh => h (by omega))

theorem set_oob (ls : List (List String)) (i : Nat) (x : List String)
    (h : ls.length ≤ i) : ls.set i x = ls := by
  induction ls generalizing i with
  | nil => rfl
  | cons a t ih =>
    cases i with
    | zero => simp at h
    | succ j => simpa using ih j (by simpa using h)

/-- The cumulative effect of the name-list writes of `check_match`'s
output loop, as a function of the name lists alone. -/
def namesAfter (li : List Variant) (i : Nat) (ls : List (List String)) :
    List (List String) :=
  match li with
  | [] => ls
  | v :: rest => namesAfter rest (i + 1) (appendName ls i v.name)

theorem matchLoop_names_eq (li : List Variant) :
    ∀ (i : Nat) (log : Log) (wrote : Bool),
    (matchLoop li i log wrote).1.names_lists = namesAfter li i log.names_lists := by
  induction li with
  | nil =>
    intro i log wrote
    rfl
  | cons v rest ih =>
    intro i log wrote
    simp only [matchLoop, namesAfter]
    split
    · rw [ih]
    · rw [ih]

theorem namesAfter_getD (li : List Variant) :
    ∀ (i : Nat) (ls : List (List String)) (j : Nat),
    (namesAfter li i ls).getD j []
      = ls.getD j [] ++
        (if i ≤ j ∧ j < i + li.length ∧ j < ls.length
         then [(li.getD (j - i) default).name] else []) := by
  induction li with
  | nil =>
    intro i ls j
    simp only [namesAfter, List.length_nil]
    rw [if_neg (by omega), List.append_nil]
  | cons v rest ih =>
    intro i ls j
    simp only [namesAfter, List.length_cons]
    rw [ih]
    have hlen : (appendName ls i v.name).length = ls.length := by
      simp [appendName]
    rw [hlen]
    by_cases hij : j = i
    · subst hij
      by_cases hlt : j < ls.length
      · have hA : (appendName ls j v.name).getD j [] = ls.getD j [] ++ [v.name] := by
          unfold appendName
          exact getD_set_self ls j _ hlt
        rw [hA, if_neg (by omega),
          if_pos (show j ≤ j ∧ j < j + (rest.length + 1) ∧ j < ls.length by omega)]
        simp
      · have hA : (appendName ls j v.name).getD j [] = ls.getD j [] := by
          unfold appendName
          rw [set_oob ls j _ (by omega)]
        rw [hA, if_neg (by omega), if_neg (by omega), List.append_nil]
    · have hA : (appendName ls i v.name).getD j [] = ls.getD j [] := by
        unfold appendName
        exact getD_set_ne ls i j _ (fun hh => hij hh.symm)
      rw [hA]
      by_cases hc : i + 1 ≤ j ∧ j < i + 1 + rest.length ∧ j < ls.length
      · rw [if_pos hc, if_pos (by omega)]
        have hsub : j - i = (j - (i + 1)) + 1 := by omega
        rw [hsub, List.getD_cons_succ]
      · rw [if_neg hc, if_neg (by omega)]

theorem matchLoop_matches (li : List Variant) :
    ∀ (i : Nat) (log : Log) (wrote : Bool),
    ((matchLoop li i log wrote).1.matches_bim
      = log.matches_bim ++
        (if wrote then []
         else match li.find? (fun v => v.a1 != "0" && v.a2 != "0") with
              | some v => [write_bim_line v]
              | none => [])) ∧
    (matchLoop li i log wrote).2
      = (wrote || li.any (fun v => v.a1 != "0" && v.a2 != "0")) := by
  induction li with
  | nil =>
    intro i log wrote
    cases wrote <;> simp [matchLoop, List.find?]
  | cons v rest ih =>
    intro i log wrote
    simp only [matchLoop]
    cases wrote with
    | true =>
      rw [if_neg (by simp)]
      constructor
      · rw [(ih (i + 1) _ true).1]
        simp
      · rw [(ih (i + 1) _ true).2]
        simp
    | false =>
      by_cases hv : (v.a1 != "0" && v.a2 != "0") = true
      · rw [if_pos (by simpa using hv)]
        have hfc : (v :: rest).find? (fun x => x.a1 != "0" && x.a2 != "0") = some v := by
          simp [List.find?_cons, hv]
        constructor
        · rw [(ih (i + 1) _ true).1, hfc]
          simp
        · rw [(ih (i + 1) _ true).2]
          simp [hv]
      · have hv' : (v.a1 != "0" && v.a2 != "0") = false := Bool.eq_false_iff.mpr hv
        rw [if_neg (by simp [hv'])]
        have hfc : (v :: rest).find? (fun x => x.a1 != "0" && x.a2 != "0")
            = rest.find? (fun x => x.a1 != "0" && x.a2 != "0") := by
          simp [List.find?_cons, hv']
        constructor
        · rw [(ih (i + 1) _ false).1, hfc]
        · rw [(ih (i + 1) _ false).2]
          simp [hv']

/-- C7.  On a full match, every stream's name list receives that
stream's record identifier, and exactly one representative line is
appended to the matched-records output: the first record in index order
whose two alleles are both non-sentinel, or record 0 when every record
has a sentinel allele (`write_bim_line` writes the six fields with the
distance field as the literal `"0"`). -/
theorem match_outputs (li : List Variant) (log : Log)
    (hlen : log.names_lists.length = li.length)
    (hm : (check_match li log).1 = true) :
    (∀ i, i < li.length →
      (check_match li log).2.names_lists.getD i []
        = log.names_lists.getD i [] ++ [(li.getD i default).name]) ∧
    (check_match li log).2.matches_bim
      = log.matches_bim ++
        [write_bim_line ((li.find? (fun v => v.a1 != "0" && v.a2 != "0")).getD
          (li.headD default))] := by
  have hall : li.tail.all (fun v => Variant.alleles_eq v (li.headD default)) = true := by
    rw [check_match_fst] at hm
    exact hm
  have hnames : ∀ i, i < li.length →
      (matchLoop li 0 log false).1.names_lists.getD i []
        = log.names_lists.getD i [] ++ [(li.getD i default).name] := by
    intro i hi
    rw [matchLoop_names_eq, namesAfter_getD]
    rw [if_pos (by omega)]
    simp
  simp only [check_match]
  rw [hall, if_pos rfl]
  rw [(matchLoop_matches li 0 log false).2]
  by_cases hany : li.any (fun v => v.a1 != "0" && v.a2 != "0") = true
  · rw [hany, if_pos (by simp)]
    refine ⟨hnames, ?_⟩
    obtain ⟨v, hfind⟩ : ∃ v, li.find? (fun v => v.a1 != "0" && v.a2 != "0") = some v := by
      cases hf : li.find? (fun x => x.a1 != "0" && x.a2 != "0") with
      | some v => exact ⟨v, rfl⟩
      | none =>
        rcases List.any_eq_true.mp hany with ⟨x, hx, hpx⟩
        exact absurd hpx (List.find?_eq_none.mp hf x hx)
    rw [(matchLoop_matches li 0 log false).1, hfind]
    rfl
  · have hany' : li.any (fun v => v.a1 != "0" && v.a2 != "0") = false :=
      Bool.eq_false_iff.mpr hany
    rw [hany', if_neg (by simp)]
    have hfind : li.find? (fun v => v.a1 != "0" && v.a2 != "0") = none := by
      rw [List.find?_eq_none]
      intro x hx
      have := List.any_eq_false.mp hany' x hx
      simp [this]
    refine ⟨hnames, ?_⟩
    rw [(matchLoop_matches li 0 log false).1, hfind]
    simp

theorem match_outputs_witness :
    ((check_match [⟨1, "rs1", 100, "A", "0"⟩, ⟨1, "rs1b", 100, "A", "G"⟩]
        (Log.openLog 2)).2.names_lists.getD 0 []
      = (Log.openLog 2).names_lists.getD 0 [] ++
        [(([⟨1, "rs1", 100, "A", "0"⟩, ⟨1, "rs1b", 100, "A", "G"⟩] :
            List Variant).getD 0 default).name]) ∧
    ((check_match [⟨1, "rs1", 100, "A", "0"⟩, ⟨1, "rs1b", 100, "A", "G"⟩]
        (Log.openLog 2)).2.matches_bim
      = (Log.openLog 2).matches_bim ++
        [write_bim_line ((([⟨1, "rs1", 100, "A", "0"⟩, ⟨1, "rs1b", 100, "A", "G"⟩] :
            List Variant).find? (fun v => v.a1 != "0" && v.a2 != "0")).getD
          (([⟨1, "rs1", 100, "A", "0"⟩, ⟨1, "rs1b", 100, "A", "G"⟩] :
            List Variant).headD default))]) :=
  ⟨(match_outputs [⟨1, "rs1", 100, "A", "0"⟩, ⟨1, "rs1b", 100, "A", "G"⟩]
      (Log.openLog 2) (by decide) (by decide)).1 0 (by decide),
   (match_outputs [⟨1, "rs1", 100, "A", "0"⟩, ⟨1, "rs1b", 100, "A", "G"⟩]
      (Log.openLog 2) (by decide) (by decide)).2⟩

/-! ## Usage check -/

/-- C9.  With fewer than 2 input files (`argc <= 2`), `main` prints the
usage text and exits with status 1; no input file is opened and the
merge join never starts.  (The fixed-name output logs are still opened,
because the source calls `Log::open` before the argument check.) -/
theorem usage_error_too_few_files (files : List (List Variant))
    (h : files.length < 2) :
    bimMain files =
      { openedOutputLogs := true, printedUsage := true, openedInputCount := 0,
        joinStarted := false, exitCode := some 1, finalState := none } := by
  unfold bimMain
  rw [if_pos (by omega)]

theorem usage_error_too_few_files_witness :
    bimMain [[⟨1, "rs1", 100, "A", "G"⟩]] =
      { openedOutputLogs := true, printedUsage := true, openedInputCount := 0,
        joinStarted := false, exitCode := some 1, finalState := none } :=
  usage_error_too_few_files [[⟨1, "rs1", 100, "A", "G"⟩]] (by decide)

/-! ## The equal-loci mismatch edge case -/

/-- All current records share one locus (the situation of the spec's
tie-advance edge case). -/
def allLociEqual (cur : List Variant) : Prop :=
  ∀ i, i < cur.length →
    Variant.locus_eq (cur.getD i default) (cur.getD 0 default) = true

instance (cur : List Variant) : Decidable (allLociEqual cur) := by
  unfold allLociEqual
  infer_instance

/-- A frontier that fails the full-match test while all loci are equal:
the state from which `read_variants_until_max` advances nothing. -/
def tieStuck (s : MState) : Prop :=
  (check_match s.cur s.log).1 = false ∧ allLociEqual s.cur

instance (s : MState) : Decidable (tieStuck s) := by
  unfold tieStuck
  infer_instance

/-- Two streams whose current records sit on the same locus (1, 100)
with incompatible alleles A/G versus C/T, while both files still hold a
further record. -/
def tieState : MState :=
  ⟨[⟨[⟨1, "x", 200, "A", "T"⟩], false⟩, ⟨[⟨1, "y", 200, "A", "T"⟩], false⟩],
   [⟨1, "rs1", 100, "A", "G"⟩, ⟨1, "rs1b", 100, "C", "T"⟩],
   Log.openLog 2⟩

/-- C3.  On a mismatching frontier whose loci are all equal the merge
driver advances nothing: the step is the identity on the whole state, so
the same frontier is re-evaluated forever and the run never terminates
(for any amount of fuel), contrary to the advance-all rule the spec
requires. -/
theorem tie_mismatch_stuck_forever :
    tieStuck tieState ∧
    step tieState = tieState ∧
    ∀ fuel, run fuel tieState = none := by
  refine ⟨by decide, by decide, ?_⟩
  intro fuel
  induction fuel with
  | zero =>
    decide
  | succ n ih =>
    show run (n + 1) tieState = none
    simp only [run]
    rw [show any_eof tieState.streams = false by decide,
      if_neg Bool.false_ne_true,
      show step tieState = tieState by decide]
    exact ih

/-! ## Termination of the merge loop -/

theorem getD_mem {α : Type} [Inhabited α] (l : List α) (i : Nat)
    (h : i < l.length) : l.getD i default ∈ l := by
  induction l generalizing i with
  | nil => simp at h
  | cons a t ih =>
    cases i with
    | zero => exact List.mem_cons_self a t
    | succ j => exact List.mem_cons_of_mem a (ih j (by simpa using h))

theorem exists_getD_of_mem {α : Type} [Inhabited α] {l : List α} {x : α}
    (h : x ∈ l) : ∃ i, i < l.length ∧ l.getD i default = x := by
  induction l with
  | nil => simp at h
  | cons a t ih =>
    rcases List.mem_cons.mp h with h | h
    · exact ⟨0, by simp, h.symm⟩
    · rcases ih h with ⟨i, hi, hgd⟩
      exact ⟨i + 1, by simpa using hi, by simpa using hgd⟩

/-- The record-count potential of one stream: its unread records plus
one pending failed read while the eofbit is still clear. -/
def streamMeasure (f : BimStream) : Nat :=
  f.remaining.length + (if f.eofFlag then 0 else 1)

/-- The loop potential of a merge state. -/
def mMeasure (s : MState) : Nat :=
  ∑ i in Finset.range s.streams.length, streamMeasure (s.streams.getD i default)

/-- Shape invariant of every reachable merge state: the stream and
cursor arrays have the same positive length, and a set eofbit means no
records remain. -/
def StateInv (s : MState) : Prop :=
  s.streams.length = s.cur.length ∧ 0 < s.streams.length ∧
    ∀ f ∈ s.streams, f.eofFlag = true → f.remaining = []

theorem streamMeasure_read_lt (f : BimStream) (v : Variant)
    (h : f.eofFlag = false) :
    streamMeasure (read_variant f v).1 < streamMeasure f := by
  unfold read_variant streamMeasure
  rcases hrem : f.remaining with _ | ⟨w, rest⟩
  · simp [h]
  · simp [h]

theorem streamMeasure_read_le (f : BimStream) (v : Variant) :
    streamMeasure (read_variant f v).1 ≤ streamMeasure f := by
  unfold read_variant streamMeasure
  rcases hrem : f.remaining with _ | ⟨w, rest⟩
  · cases hf : f.eofFlag <;> simp
  · simp

theorem read_variant_inv (f : BimStream) (v : Variant)
    (h : f.eofFlag = true → f.remaining = []) :
    (read_variant f v).1.eofFlag = true → (read_variant f v).1.remaining = [] := by
  unfold read_variant
  rcases hrem : f.remaining with _ | ⟨w, rest⟩
  · intro _
    rfl
  · intro hh
    exact absurd (h hh) (by simp [hrem])

theorem read_variants_inv (files : List BimStream) (cur : List Variant)
    (hinv : ∀ f ∈ files, f.eofFlag = true → f.remaining = []) :
    ∀ f ∈ (read_variants files cur).1, f.eofFlag = true → f.remaining = [] := by
  intro f hf
  simp only [read_variants] at hf
  rcases List.mem_map.mp hf with ⟨q, hq, rfl⟩
  rcases List.mem_map.mp hq with ⟨p, hp, rfl⟩
  have hmem := (List.of_mem_zip hp).1
  split
  · exact read_variant_inv p.1 p.2 (hinv p.1 hmem)
  · exact hinv p.1 hmem

theorem read_variants_until_max_inv (files : List BimStream) (cur : List Variant)
    (mx : Variant)
    (hinv : ∀ f ∈ files, f.eofFlag = true → f.remaining = []) :
    ∀ f ∈ (read_variants_until_max files cur mx).1,
      f.eofFlag = true → f.remaining = [] := by
  intro f hf
  simp only [read_variants_until_max] at hf
  rcases List.mem_map.mp hf with ⟨q, hq, rfl⟩
  rcases List.mem_map.mp hq with ⟨p, hp, rfl⟩
  have hmem := (List.of_mem_zip hp).1
  split
  · exact read_variant_inv p.1 p.2 (hinv p.1 hmem)
  · exact hinv p.1 hmem

theorem step_lengths (s : MState) (h : s.streams.length = s.cur.length) :
    (step s).streams.length = s.streams.length ∧
    (step s).cur.length = s.cur.length := by
  simp only [step]
  split
  · exact ⟨(read_variants_length _ _ h).1, (read_variants_length _ _ h).2⟩
  · exact ⟨(read_variants_until_max_length _ _ _ h).1,
      (read_variants_until_max_length _ _ _ h).2⟩

theorem step_inv (s : MState) (hInv : StateInv s) : StateInv (step s) := by
  obtain ⟨h1, h2, h3⟩ := hInv
  refine ⟨?_, ?_, ?_⟩
  · rw [(step_lengths s h1).1, (step_lengths s h1).2, h1]
  · rw [(step_lengths s h1).1]
    exact h2
  · simp only [step]
    split
    · exact read_variants_inv s.streams s.cur h3
    · exact read_variants_until_max_inv s.streams s.cur _ h3

theorem maxIdx_bounds (li : List Variant) (h0 : 0 < li.length) :
    maxIdx li < li.length ∧
    ∀ j, j < li.length →
      Variant.gt (li.getD j default) (li.getD (maxIdx li) default) = false := by
  have hres := maxFold_spec li (li.length - 1) 0 1 (by omega) h0 (by omega)
    (fun m hm => by
      have hm0 : m = 0 := by omega
      subst hm0
      exact Variant.gt_irrefl _)
    (fun m hm => absurd hm (by omega))
  have hfold : (List.range' 1 (li.length - 1)).foldl (maxStep li) 0 = maxIdx li := rfl
  rw [hfold] at hres
  exact ⟨hres.1, fun j hj => hres.2.1 j (by omega)⟩

theorem eofFlag_false_of_guard (files : List BimStream)
    (h : any_eof files = false) (i : Nat) (hi : i < files.length) :
    (files.getD i default).eofFlag = false := by
  have hmem := getD_mem files i hi
  cases hf : (files.getD i default).eofFlag
  · rfl
  · exfalso
    have ht : any_eof files = true := by
      unfold any_eof
      rw [List.any_eq_true]
      exact ⟨_, hmem, hf⟩
    rw [ht] at h
    exact absurd h (by simp)

theorem locus_trichotomy (a b : Variant) :
    Variant.lt a b = true ∨ Variant.gt a b = true ∨
      (a.chrom = b.chrom ∧ a.position = b.position) := by
  rw [Variant.lt_iff, Variant.gt_iff]
  omega

theorem exists_laggard (cur : List Variant) (h0 : 0 < cur.length)
    (hne : ¬ allLociEqual cur) :
    ∃ i, i < cur.length ∧
      Variant.lt (cur.getD i default) (maxVariant cur) = true := by
  obtain ⟨j, hj, hneq⟩ : ∃ j, j < cur.length ∧
      Variant.locus_eq (cur.getD j default) (cur.getD 0 default) = false := by
    unfold allLociEqual at hne
    push_neg at hne
    obtain ⟨j, hj, hne2⟩ := hne
    exact ⟨j, hj, Bool.eq_false_iff.mpr hne2⟩
  have hb := maxIdx_bounds cur h0
  have hmv : maxVariant cur = cur.getD (maxIdx cur) default := rfl
  rcases locus_trichotomy (cur.getD j default) (maxVariant cur) with hlt | hgt | heq
  · exact ⟨j, hj, hlt⟩
  · rw [hmv, hb.2 j hj] at hgt
    exact absurd hgt Bool.false_ne_true
  · rcases locus_trichotomy (cur.getD 0 default) (maxVariant cur) with hlt0 | hgt0 | heq0
    · exact ⟨0, h0, hlt0⟩
    · rw [hmv, hb.2 0 h0] at hgt0
      exact absurd hgt0 Bool.false_ne_true
    · exfalso
      have hneq' := Bool.eq_false_iff.mp hneq
      rw [Ne, Variant.locus_eq_iff] at hneq'
      omega

theorem mMeasure_step_match (s : MState) (hInv : StateInv s)
    (hg : any_eof s.streams = false)
    (hm : (check_match s.cur s.log).1 = true) :
    mMeasure (step s) < mMeasure s := by
  rw [step_match s hm]
  unfold mMeasure
  have hlen1 : (read_variants s.streams s.cur).1.length = s.streams.length :=
    (read_variants_length _ _ hInv.1).1
  show (∑ i in Finset.range (read_variants s.streams s.cur).1.length, _) < _
  rw [hlen1]
  apply Finset.sum_lt_sum_of_nonempty
  · exact Finset.nonempty_range_iff.mpr (by have h2 := hInv.2.1; omega)
  · intro i hi
    rw [Finset.mem_range] at hi
    have heof := eofFlag_false_of_guard s.streams hg i hi
    show streamMeasure ((read_variants s.streams s.cur).1.getD i default) < _
    rw [(read_variants_getD s.streams s.cur i hInv.1 hi).1,
      if_pos (by rw [heof]; rfl)]
    exact streamMeasure_read_lt _ _ heof

theorem mMeasure_step_mismatch (s : MState) (hInv : StateInv s)
    (hg : any_eof s.streams = false)
    (hm : (check_match s.cur s.log).1 = false)
    (hne : ¬ allLociEqual s.cur) :
    mMeasure (step s) < mMeasure s := by
  rw [step_mismatch s hm]
  unfold mMeasure
  have hlen1 : (read_variants_until_max s.streams s.cur (maxVariant s.cur)).1.length
      = s.streams.length :=
    (read_variants_until_max_length _ _ _ hInv.1).1
  show (∑ i in Finset.range
      (read_variants_until_max s.streams s.cur (maxVariant s.cur)).1.length, _) < _
  rw [hlen1]
  obtain ⟨i0, hi0, hlt0⟩ := exists_laggard s.cur
    (by have h1 := hInv.1; have h2 := hInv.2.1; omega) hne
  apply Finset.sum_lt_sum
  · intro i hi
    rw [Finset.mem_range] at hi
    show streamMeasure
      ((read_variants_until_max s.streams s.cur (maxVariant s.cur)).1.getD i default) ≤ _
    rw [(read_variants_until_max_getD s.streams s.cur (maxVariant s.cur) i hInv.1 hi).1]
    split
    · exact streamMeasure_read_le _ _
    · exact le_refl _
  · have hi0' : i0 < s.streams.length := by have h1 := hInv.1; omega
    refine ⟨i0, Finset.mem_range.mpr hi0', ?_⟩
    have heof := eofFlag_false_of_guard s.streams hg i0 hi0'
    show streamMeasure
      ((read_variants_until_max s.streams s.cur (maxVariant s.cur)).1.getD i0 default) < _
    rw [(read_variants_until_max_getD s.streams s.cur (maxVariant s.cur) i0 hInv.1 hi0').1,
      if_pos (by rw [hlt0, heof]; rfl)]
    exact streamMeasure_read_lt _ _ heof

theorem step_decreases (s : MState) (hInv : StateInv s)
    (hg : any_eof s.streams = false) (hts : ¬ tieStuck s) :
    mMeasure (step s) < mMeasure s := by
  by_cases hm : (check_match s.cur s.log).1 = true
  · exact mMeasure_step_match s hInv hg hm
  · have hm' := Bool.eq_false_iff.mpr hm
    have hne : ¬ allLociEqual s.cur := fun hall => hts ⟨hm', hall⟩
    exact mMeasure_step_mismatch s hInv hg hm' hne

theorem run_of_fuel (fuel : Nat) :
    ∀ s, StateInv s → mMeasure s ≤ fuel →
    (∀ j, any_eof ((step^[j]) s).streams = false → ¬ tieStuck ((step^[j]) s)) →
    ∃ r, run fuel s = some r := by
  induction fuel with
  | zero =>
    intro s hInv hM hT
    cases hg : any_eof s.streams with
    | true => exact ⟨s, by simp [run, hg]⟩
    | false =>
      exfalso
      have hts : ¬ tieStuck s := by
        have := hT 0
        rw [Function.iterate_zero_apply] at this
        exact this hg
      have := step_decreases s hInv hg hts
      omega
  | succ n ih =>
    intro s hInv hM hT
    cases hg : any_eof s.streams with
    | true => exact ⟨s, by simp [run, hg]⟩
    | false =>
      have hts : ¬ tieStuck s := by
        have := hT 0
        rw [Function.iterate_zero_apply] at this
        exact this hg
      have hdec := step_decreases s hInv hg hts
      obtain ⟨r, hr⟩ := ih (step s) (step_inv s hInv) (by omega)
        (fun j hj => by
          have := hT (j + 1)
          rw [Function.iterate_succ_apply] at this
          exact this hj)
      refine ⟨r, ?_⟩
      simp only [run]
      rw [hg, if_neg Bool.false_ne_true]
      exact hr

theorem initState_lengths (files : List (List Variant)) :
    (initState files).streams.length = files.length ∧
    (initState files).cur.length = files.length := by
  simp only [initState]
  have h : (files.map (fun f => (⟨f, false⟩ : BimStream))).length
      = (List.replicate files.length (default : Variant)).length := by simp
  constructor
  · rw [(read_variants_length _ _ h).1]
    simp
  · rw [(read_variants_length _ _ h).2]
    simp

theorem initState_inv (files : List (List Variant)) (hk : 0 < files.length) :
    StateInv (initState files) := by
  refine ⟨?_, ?_, ?_⟩
  · rw [(initState_lengths files).1, (initState_lengths files).2]
  · rw [(initState_lengths files).1]
    exact hk
  · simp only [initState]
    apply read_variants_inv
    intro f hf
    rcases List.mem_map.mp hf with ⟨file, _, rfl⟩
    intro h
    exact absurd h (by simp)

theorem streamMeasure_initial (f : List Variant) (v : Variant) :
    streamMeasure (read_variant ⟨f, false⟩ v).1 = f.length := by
  unfold read_variant streamMeasure
  cases f <;> simp

theorem map_stream_getD (files : List (List Variant)) (i : Nat)
    (hi : i < files.length) :
    (files.map (fun f => (⟨f, false⟩ : BimStream))).getD i default
      = ⟨files.getD i [], false⟩ := by
  induction files generalizing i with
  | nil => simp at hi
  | cons f fs ih =>
    cases i with
    | zero => rfl
    | succ j => simpa using ih j (by simpa using hi)

theorem sum_getD_length (files : List (List Variant)) :
    ∑ i in Finset.range files.length, (files.getD i []).length
      = totalRecords files := by
  induction files with
  | nil => simp [totalRecords]
  | cons f fs ih =>
    rw [List.length_cons, Finset.sum_range_succ']
    simp only [List.getD_cons_succ, List.getD_cons_zero]
    rw [ih]
    unfold totalRecords
    simp only [List.map_cons, List.sum_cons]
    omega

theorem mMeasure_init (files : List (List Variant)) :
    mMeasure (initState files) = totalRecords files := by
  unfold mMeasure
  rw [show (initState files).streams.length = files.length from
    (initState_lengths files).1]
  rw [← sum_getD_length files]
  apply Finset.sum_congr rfl
  intro i hi
  rw [Finset.mem_range] at hi
  have hlen : (files.map (fun f => (⟨f, false⟩ : BimStream))).length
      = (List.replicate files.length (default : Variant)).length := by simp
  have hi' : i < (files.map (fun f => (⟨f, false⟩ : BimStream))).length := by
    simpa using hi
  show streamMeasure ((read_variants _ _).1.getD i default) = _
  rw [(read_variants_getD _ _ i hlen hi').1, map_stream_getD files i hi,
    if_pos (show (!(⟨files.getD i [], false⟩ : BimStream).eofFlag) = true from rfl)]
  exact streamMeasure_initial _ _

/-- C4.  Whenever no reachable frontier hits the equal-loci mismatch
edge case of spec section 4.3, the merge loop terminates within
`totalRecords files` iterations (the sum of the record counts of all
input files). -/
theorem merge_terminates (files : List (List Variant)) (hk : 0 < files.length)
    (hT : ∀ j, any_eof ((step^[j]) (initState files)).streams = false →
      ¬ tieStuck ((step^[j]) (initState files))) :
    ∃ r, run (totalRecords files) (initState files) = some r :=
  run_of_fuel (totalRecords files) (initState files) (initState_inv files hk)
    (le_of_eq (mMeasure_init files)) hT

theorem step_preserves_eofFlag (s : MState) (i : Nat)
    (hlen : s.streams.length = s.cur.length) (hi : i < s.streams.length)
    (hf : (s.streams.getD i default).eofFlag = true) :
    ((step s).streams.getD i default).eofFlag = true := by
  simp only [step]
  split
  · show (((read_variants s.streams s.cur).1.getD i default)).eofFlag = true
    rw [(read_variants_getD s.streams s.cur i hlen hi).1,
      if_neg (by rw [hf]; simp)]
    exact hf
  · show (((read_variants_until_max s.streams s.cur
      (maxVariant s.cur)).1.getD i default)).eofFlag = true
    rw [(read_variants_until_max_getD s.streams s.cur _ i hlen hi).1,
      if_neg (by rw [hf]; simp)]
    exact hf

theorem any_eof_step (s : MState) (hlen : s.streams.length = s.cur.length)
    (h : any_eof s.streams = true) : any_eof (step s).streams = true := by
  unfold any_eof at h ⊢
  rcases List.any_eq_true.mp h with ⟨f, hf, hef⟩
  rcases exists_getD_of_mem hf with ⟨i, hi, hgd⟩
  have hpres := step_preserves_eofFlag s i hlen hi (by rw [hgd]; exact hef)
  rw [List.any_eq_true]
  refine ⟨(step s).streams.getD i default, getD_mem _ i ?_, hpres⟩
  rw [(step_lengths s hlen).1]
  exact hi

theorem iterate_inv (s : MState) (hInv : StateInv s) (j : Nat) :
    StateInv ((step^[j]) s) := by
  induction j with
  | zero => simpa using hInv
  | succ n ih =>
    rw [Function.iterate_succ_apply']
    exact step_inv _ ih

theorem any_eof_iterate (s : MState) (hInv : StateInv s) (j : Nat)
    (h : any_eof s.streams = true) :
    any_eof ((step^[j]) s).streams = true := by
  induction j with
  | zero => simpa using h
  | succ n ih =>
    rw [Function.iterate_succ_apply']
    exact any_eof_step _ (iterate_inv s hInv n).1 ih

/-- Scenario-D inputs: two sorted files sharing only locus (1, 200). -/
def demoFiles : List (List Variant) :=
  [[⟨1, "rs1", 100, "A", "G"⟩, ⟨1, "rs2", 200, "A", "T"⟩],
   [⟨1, "rs2b", 200, "A", "T"⟩]]

theorem merge_terminates_witness :
    ∃ r, run (totalRecords demoFiles) (initState demoFiles) = some r :=
  merge_terminates demoFiles (by decide) (by
    intro j hj
    have hlt : j < 2 := by
      by_contra hge
      push_neg at hge
      obtain ⟨m, rfl⟩ : ∃ m, j = m + 2 := ⟨j - 2, by omega⟩
      have h2 : any_eof ((step^[2]) (initState demoFiles)).streams = true := by
        decide
      have hpers := any_eof_iterate _
        (iterate_inv _ (initState_inv demoFiles (by decide)) 2) m h2
      rw [← Function.iterate_add_apply] at hpers
      rw [hpers] at hj
      exact absurd hj (by simp)
    interval_cases j
    · decide
    · decide)

end BimInnerJoin
